import Mathlib

/-!
Verification of the devalue-style reference-graph decoder of
`src/plugins/russian/hexnovels.ts` (`extractAstroState`,
`getAstroValueByKey`, `resolveAstroValue`).

The JSON values that appear in the serialized Astro state table are
modelled by `JVal` (with `JList`/`JObj` for array and object contents,
kept in order); JavaScript numbers are modelled as rationals, so that
`Number.isInteger` becomes "the denominator is 1".  The mutable
`Map`/`Set` state of the TypeScript code is threaded explicitly:
`resolveAstroValue` takes the cache (an association list, newest entry
first, mirroring `Map.set`/`Map.get`) and the visiting set, and returns
them together with the result.  A ghost trace of the slot indices that
are actually expanded (in expansion order) is returned as well; it is
pure instrumentation used to state the memoization claims and does not
influence any computed value.  Recursion in the source is bounded by the
visiting-set check; here it is made structural with a fuel parameter
(`none` = fuel exhausted), and the termination theorem shows a concrete
fuel bound at which the function always returns `some`.
-/

mutual
/-- A JSON value as produced by `JSON.parse`, with JavaScript numbers
modelled as rationals. -/
inductive JVal where
  | null : JVal
  | bool : Bool → JVal
  | num : Rat → JVal
  | str : String → JVal
  | arr : JList → JVal
  | obj : JObj → JVal
deriving DecidableEq, Repr
/-- The contents of a JSON array, in order. -/
inductive JList where
  | nil : JList
  | cons : JVal → JList → JList
deriving DecidableEq, Repr
/-- The entries of a JSON object, in insertion order (the order
`Object.entries` iterates them). -/
inductive JObj where
  | nil : JObj
  | cons : String → JVal → JObj → JObj
deriving DecidableEq, Repr
end

mutual
/-- Structural size of a value (number of nodes, used for fuel bounds). -/
def JVal.size : JVal → Nat
  | .null => 1
  | .bool _ => 1
  | .num _ => 1
  | .str _ => 1
  | .arr xs => 1 + xs.size
  | .obj kvs => 1 + kvs.size
/-- Structural size of array contents. -/
def JList.size : JList → Nat
  | .nil => 1
  | .cons x rest => 1 + x.size + rest.size
/-- Structural size of object entries. -/
def JObj.size : JObj → Nat
  | .nil => 1
  | .cons _ x rest => 1 + x.size + rest.size
end

/-- The `array.length` of the state table. -/
def JList.length : JList → Nat
  | .nil => 0
  | .cons _ rest => 1 + rest.length

/-- Indexing `astroState[i]` (total, with a default never hit on in-range use). -/
def JList.getD : JList → Nat → JVal → JVal
  | .nil, _, d => d
  | .cons x _, 0, _ => x
  | .cons _ rest, i + 1, d => rest.getD i d

/-- The memoization cache `Map<number, unknown>`: an association list,
newest binding first, so `List.lookup` is `Map.get`. -/
abbrev Cache := List (Nat × JVal)

/-- The test on lines 525-530 of the source: value is a number, passes
the integer check `Number.isInteger`, and satisfies
`value >= 0 && value < astroState.length`. -/
def isSlotRef (len : Nat) : JVal → Bool
  | .num q => decide (q.den = 1 ∧ 0 ≤ q ∧ q < (len : Rat))
  | _ => false

/-- The table index denoted by a slot-reference value. -/
def refIndex : JVal → Nat
  | .num q => q.num.toNat
  | _ => 0

/-- The resolver `resolveAstroValue` (source lines 519-587), with the mutable cache and
visiting set threaded through and a ghost trace of expanded slot indices.
An in-range integer is looked up in the cache, checked against the
visiting set (cycle → `null`, nothing written), and otherwise its target
slot is expanded with the index added to the visiting set for the
duration and removed again before the result is cached and returned.
Arrays and objects are resolved element-wise, left to right, threading
the state; every other value is returned unchanged.  Expanding the
target slot of a reference reuses the array/object/primitive dispatch
below, which performs exactly the per-branch traversal of the source; a
primitive target (source line 557) is terminal and is not treated as a
further reference.  The fuel is consumed once per call and only bounds
recursion depth; `none` means it ran out. -/
def resolveAstroValue : Nat → JList → JVal → Cache → Finset Nat →
    Option (JVal × Cache × Finset Nat × List Nat)
  | 0, _, _, _, _ => none
  | fuel + 1, astroState, value, cache, visiting =>
    if isSlotRef astroState.length value then
      match cache.lookup (refIndex value) with
      | some r => some (r, cache, visiting, [])
      | none =>
        if refIndex value ∈ visiting then
          some (.null, cache, visiting, [])
        else
          match astroState.getD (refIndex value) .null with
          | .arr xs => do
            let (r, c1, v1, t1) ←
              resolveAstroValue fuel astroState (.arr xs) cache
                (insert (refIndex value) visiting)
            some (r, (refIndex value, r) :: c1, v1.erase (refIndex value),
              refIndex value :: t1)
          | .obj kvs => do
            let (r, c1, v1, t1) ←
              resolveAstroValue fuel astroState (.obj kvs) cache
                (insert (refIndex value) visiting)
            some (r, (refIndex value, r) :: c1, v1.erase (refIndex value),
              refIndex value :: t1)
          | prim =>
            some (prim, (refIndex value, prim) :: cache,
              (insert (refIndex value) visiting).erase (refIndex value),
              [refIndex value])
    else
      match value with
      | .arr .nil => some (.arr .nil, cache, visiting, [])
      | .arr (.cons x rest) => do
        let (y, c1, v1, t1) ←
          resolveAstroValue fuel astroState x cache visiting
        let (ys, c2, v2, t2) ←
          resolveAstroValue fuel astroState (.arr rest) c1 v1
        match ys with
        | .arr ys' => some (.arr (.cons y ys'), c2, v2, t1 ++ t2)
        | _ => none
      | .obj .nil => some (.obj .nil, cache, visiting, [])
      | .obj (.cons k x rest) => do
        let (y, c1, v1, t1) ←
          resolveAstroValue fuel astroState x cache visiting
        let (ys, c2, v2, t2) ←
          resolveAstroValue fuel astroState (.obj rest) c1 v1
        match ys with
        | .obj ys' => some (.obj (.cons k y ys'), c2, v2, t1 ++ t2)
        | _ => none
      | v => some (v, cache, visiting, [])

/-- Number of in-range indices not yet in the visiting set: the quantity
that the visiting-set check makes decrease at every slot expansion. -/
def unvisited (astroState : JList) (visiting : Finset Nat) : Nat :=
  (Finset.range astroState.length \ visiting).card

/-- A fuel amount sufficient to resolve `value` against `astroState`
starting from visiting set `visiting` (proved below). -/
def enoughFuel (astroState : JList) (value : JVal)
    (visiting : Finset Nat) : Nat :=
  value.size + unvisited astroState visiting * (astroState.size + 1)

/-- Resolution with a fresh cache and visiting set at a sufficient fuel:
the per-key entry point used by `getAstroValueByKey`. -/
def resolveTop (astroState : JList) (value : JVal) :
    Option (JVal × Cache × Finset Nat × List Nat) :=
  resolveAstroValue (enoughFuel astroState value ∅) astroState value [] ∅

/-- The search `astroState.findIndex(item => item === key)` for a string `key`:
JavaScript strict equality of a table entry with a string holds exactly
when the entry is that string.  `none` plays `-1`. -/
def findKeyIndex (key : String) : JList → Option Nat
  | .nil => none
  | .cons x rest =>
    if x = JVal.str key then some 0
    else (findKeyIndex key rest).map (· + 1)

/-- The accessor `getAstroValueByKey` (source lines 499-517): locate the first table
entry strictly equal to `key`; if it exists at position `p` with `p + 1`
in bounds, resolve the slot value `astroState[p+1]` with a fresh cache
and visiting set; otherwise `none` (the `null` of the source). -/
def getAstroValueByKey (astroState : JList) (key : String) :
    Option JVal :=
  match findKeyIndex key astroState with
  | none => none
  | some keyIndex =>
    if keyIndex + 1 ≥ astroState.length then none
    else
      match resolveTop astroState (astroState.getD (keyIndex + 1) .null)
        with
      | some (r, _, _, _) => some r
      | none => none

/-- The extractor `extractAstroState` (source lines 479-497).  The cheerio lookup
of the element text, written `.html()` on the selected element, is
abstracted to its result `rawState` (`none` = element missing, mirroring
the `null` from cheerio), and `JSON.parse` to a `parse` argument
(`none` = the parse throws, caught by the `try`/`catch` of the source).  The guard `!rawState` in the source rejects both `null` and
the empty string; a parsed value that is not an array falls through to
the final `return null`. -/
def extractAstroState (parse : String → Option JVal)
    (rawState : Option String) : Option JList :=
  match rawState with
  | none => none
  | some s =>
    if s = "" then none
    else
      match parse s with
      | some (JVal.arr xs) => some xs
      | some _ => none
      | none => none


theorem refIndex_lt_of_isSlotRef {len : Nat} {v : JVal}
    (h : isSlotRef len v = true) : refIndex v < len := by
  cases v <;> simp [isSlotRef] at h
  case num q =>
    obtain ⟨hden, hnn, hlt⟩ := h
    have hq : (q.num : Rat) = q := (Rat.den_eq_one_iff q).mp hden
    have hnum_lt : q.num < (len : Int) := by
      have h2 : (q.num : Rat) < ((len : Int) : Rat) := by
        rw [hq]; exact_mod_cast hlt
      exact_mod_cast h2
    have hnum_nn : 0 ≤ q.num := Rat.num_nonneg.mpr hnn
    simp only [refIndex]
    omega

theorem jval_size_pos : ∀ v : JVal, 1 ≤ v.size := by
  intro v; cases v <;> simp [JVal.size]

theorem jlist_size_pos : ∀ s : JList, 1 ≤ s.size := by
  intro s
  cases s with
  | nil => simp [JList.size]
  | cons x rest => simp [JList.size]; omega

theorem JList.size_getD_le : ∀ (s : JList) (i : Nat),
    (s.getD i .null).size ≤ s.size
  | .nil, _ => by simp [JList.getD, JList.size, JVal.size]
  | .cons x rest, 0 => by simp [JList.getD, JList.size]; omega
  | .cons x rest, j + 1 => by
    have := JList.size_getD_le rest j
    simp only [JList.getD, JList.size]
    omega

theorem unvisited_insert {s : JList} {vis : Finset Nat} {i : Nat}
    (hlt : i < s.length) (hni : i ∉ vis) :
    unvisited s (insert i vis) + 1 = unvisited s vis := by
  have hmem : i ∈ Finset.range s.length \ vis := by
    simp [Finset.mem_sdiff, Finset.mem_range, hlt, hni]
  unfold unvisited
  rw [Finset.sdiff_insert, Finset.card_erase_of_mem hmem]
  have hpos : 0 < (Finset.range s.length \ vis).card :=
    Finset.card_pos.mpr ⟨i, hmem⟩
  omega

theorem resolve_visiting_eq : ∀ (fuel : Nat) (s : JList) (v : JVal)
    (c : Cache) (vis : Finset Nat) (out : JVal × Cache × Finset Nat × List Nat),
    resolveAstroValue fuel s v c vis = some out → out.2.2.1 = vis := by
  intro fuel
  induction fuel with
  | zero => intro s v c vis out h; simp [resolveAstroValue] at h
  | succ f ih =>
    intro s v c vis out h
    simp only [resolveAstroValue] at h
    split at h
    · -- slot-reference branch
      next href =>
        split at h
        · cases h; rfl
        · next hlook =>
            split at h
            · cases h; rfl
            · next hnvis =>
                split at h
                · next xs htgt =>
                    cases h1 : resolveAstroValue f s (.arr xs) c
                        (insert (refIndex v) vis) with
                    | none => rw [h1] at h; simp at h
                    | some out1 =>
                      obtain ⟨r1, c1, v1, t1⟩ := out1
                      rw [h1] at h
                      simp only [bind, Option.bind] at h
                      cases h
                      have hv1 := ih s (.arr xs) c (insert (refIndex v) vis)
                        (r1, c1, v1, t1) h1
                      show v1.erase (refIndex v) = vis
                      rw [show v1 = insert (refIndex v) vis from hv1]
                      exact Finset.erase_insert hnvis
                · next kvs htgt =>
                    cases h1 : resolveAstroValue f s (.obj kvs) c
                        (insert (refIndex v) vis) with
                    | none => rw [h1] at h; simp at h
                    | some out1 =>
                      obtain ⟨r1, c1, v1, t1⟩ := out1
                      rw [h1] at h
                      simp only [bind, Option.bind] at h
                      cases h
                      have hv1 := ih s (.obj kvs) c (insert (refIndex v) vis)
                        (r1, c1, v1, t1) h1
                      show v1.erase (refIndex v) = vis
                      rw [show v1 = insert (refIndex v) vis from hv1]
                      exact Finset.erase_insert hnvis
                · next hprim1 hprim2 =>
                    cases h
                    exact Finset.erase_insert hnvis
    · -- not a slot reference
      next href =>
        split at h
        · cases h; rfl
        · next x rest =>
            cases h1 : resolveAstroValue f s x c vis with
            | none => rw [h1] at h; simp at h
            | some out1 =>
              obtain ⟨y, c1, v1, t1⟩ := out1
              rw [h1] at h
              simp only [bind, Option.bind] at h
              cases h2 : resolveAstroValue f s (.arr rest) c1 v1 with
              | none => rw [h2] at h; simp at h
              | some out2 =>
                obtain ⟨ys, c2, v2, t2⟩ := out2
                rw [h2] at h
                simp only [bind, Option.bind] at h
                have hv1 := ih s x c vis (y, c1, v1, t1) h1
                have hv2 := ih s (.arr rest) c1 v1 (ys, c2, v2, t2) h2
                split at h
                · cases h; exact hv2.trans hv1
                · simp at h
        · cases h; rfl
        · next k x rest =>
            cases h1 : resolveAstroValue f s x c vis with
            | none => rw [h1] at h; simp at h
            | some out1 =>
              obtain ⟨y, c1, v1, t1⟩ := out1
              rw [h1] at h
              simp only [bind, Option.bind] at h
              cases h2 : resolveAstroValue f s (.obj rest) c1 v1 with
              | none => rw [h2] at h; simp at h
              | some out2 =>
                obtain ⟨ys, c2, v2, t2⟩ := out2
                rw [h2] at h
                simp only [bind, Option.bind] at h
                have hv1 := ih s x c vis (y, c1, v1, t1) h1
                have hv2 := ih s (.obj rest) c1 v1 (ys, c2, v2, t2) h2
                split at h
                · cases h; exact hv2.trans hv1
                · simp at h
        · cases h; rfl

theorem resolve_arr_isArr : ∀ (fuel : Nat) (s : JList) (xs : JList)
    (c : Cache) (vis : Finset Nat) (out : JVal × Cache × Finset Nat × List Nat),
    resolveAstroValue fuel s (.arr xs) c vis = some out →
    ∃ ys, out.1 = JVal.arr ys := by
  intro fuel s xs c vis out h
  cases fuel with
  | zero => simp [resolveAstroValue] at h
  | succ f =>
    simp only [resolveAstroValue] at h
    rw [if_neg (by simp [isSlotRef])] at h
    cases xs with
    | nil => cases h; exact ⟨.nil, rfl⟩
    | cons x rest =>
      dsimp only at h
      cases h1 : resolveAstroValue f s x c vis with
      | none => rw [h1] at h; simp [bind, Option.bind] at h
      | some out1 =>
        obtain ⟨y, c1, v1, t1⟩ := out1
        rw [h1] at h
        simp only [bind, Option.bind] at h
        cases h2 : resolveAstroValue f s (.arr rest) c1 v1 with
        | none => rw [h2] at h; simp at h
        | some out2 =>
          obtain ⟨ys, c2, v2, t2⟩ := out2
          rw [h2] at h
          simp only [bind, Option.bind] at h
          split at h
          · cases h; exact ⟨_, rfl⟩
          · simp at h

theorem resolve_obj_isObj : ∀ (fuel : Nat) (s : JList) (kvs : JObj)
    (c : Cache) (vis : Finset Nat) (out : JVal × Cache × Finset Nat × List Nat),
    resolveAstroValue fuel s (.obj kvs) c vis = some out →
    ∃ ys, out.1 = JVal.obj ys := by
  intro fuel s kvs c vis out h
  cases fuel with
  | zero => simp [resolveAstroValue] at h
  | succ f =>
    simp only [resolveAstroValue] at h
    rw [if_neg (by simp [isSlotRef])] at h
    cases kvs with
    | nil => cases h; exact ⟨.nil, rfl⟩
    | cons k x rest =>
      dsimp only at h
      cases h1 : resolveAstroValue f s x c vis with
      | none => rw [h1] at h; simp [bind, Option.bind] at h
      | some out1 =>
        obtain ⟨y, c1, v1, t1⟩ := out1
        rw [h1] at h
        simp only [bind, Option.bind] at h
        cases h2 : resolveAstroValue f s (.obj rest) c1 v1 with
        | none => rw [h2] at h; simp at h
        | some out2 =>
          obtain ⟨ys, c2, v2, t2⟩ := out2
          rw [h2] at h
          simp only [bind, Option.bind] at h
          split at h
          · cases h; exact ⟨_, rfl⟩
          · simp at h

theorem resolve_isSome : ∀ (fuel : Nat) (s : JList) (v : JVal) (c : Cache)
    (vis : Finset Nat), enoughFuel s v vis ≤ fuel →
    (resolveAstroValue fuel s v c vis).isSome := by
  intro fuel
  induction fuel with
  | zero =>
    intro s v c vis hle
    exfalso
    have h1 := jval_size_pos v
    unfold enoughFuel at hle
    omega
  | succ f ih =>
    intro s v c vis hle
    simp only [resolveAstroValue]
    split
    · next href =>
        split
        · simp
        · next hlook =>
            split
            · simp
            · next hnvis =>
                have hi : refIndex v < s.length := refIndex_lt_of_isSlotRef href
                have huv := unvisited_insert hi hnvis
                have htsize := JList.size_getD_le s (refIndex v)
                have hv1 := jval_size_pos v
                have hkey : enoughFuel s (s.getD (refIndex v) .null)
                    (insert (refIndex v) vis) ≤ f := by
                  unfold enoughFuel at hle ⊢
                  rw [← huv] at hle
                  have hexp : (unvisited s (insert (refIndex v) vis) + 1) *
                      (s.size + 1) =
                      unvisited s (insert (refIndex v) vis) * (s.size + 1) +
                      (s.size + 1) := by ring
                  rw [hexp] at hle
                  linarith
                split
                · next xs htgt =>
                    rw [htgt] at hkey
                    have hin := ih s (.arr xs) c (insert (refIndex v) vis) hkey
                    obtain ⟨out1, hout1⟩ := Option.isSome_iff_exists.mp hin
                    obtain ⟨r1, c1, v1, t1⟩ := out1
                    rw [hout1]
                    simp [bind, Option.bind]
                · next kvs htgt =>
                    rw [htgt] at hkey
                    have hin := ih s (.obj kvs) c (insert (refIndex v) vis) hkey
                    obtain ⟨out1, hout1⟩ := Option.isSome_iff_exists.mp hin
                    obtain ⟨r1, c1, v1, t1⟩ := out1
                    rw [hout1]
                    simp [bind, Option.bind]
                · simp
    · next href =>
        split
        · simp
        · next x rest =>
            have hx : enoughFuel s x vis ≤ f := by
              unfold enoughFuel at hle ⊢
              simp only [JVal.size, JList.size] at hle
              linarith
            have hin1 := ih s x c vis hx
            obtain ⟨out1, hout1⟩ := Option.isSome_iff_exists.mp hin1
            obtain ⟨y, c1, v1, t1⟩ := out1
            have hveq : v1 = vis :=
              resolve_visiting_eq f s x c vis (y, c1, v1, t1) hout1
            have hrest : enoughFuel s (.arr rest) vis ≤ f := by
              unfold enoughFuel at hle ⊢
              simp only [JVal.size, JList.size] at hle ⊢
              have := jval_size_pos x
              linarith
            have hin2 := ih s (.arr rest) c1 vis hrest
            obtain ⟨out2, hout2⟩ := Option.isSome_iff_exists.mp hin2
            obtain ⟨ys, c2, v2, t2⟩ := out2
            obtain ⟨ys', hys'⟩ := resolve_arr_isArr f s rest c1 vis
              (ys, c2, v2, t2) hout2
            rw [hout1]
            simp only [bind, Option.bind]
            rw [hveq, hout2]
            simp only at hys'
            rw [hys']
            simp
        · simp
        · next k x rest =>
            have hx : enoughFuel s x vis ≤ f := by
              unfold enoughFuel at hle ⊢
              simp only [JVal.size, JObj.size] at hle
              linarith
            have hin1 := ih s x c vis hx
            obtain ⟨out1, hout1⟩ := Option.isSome_iff_exists.mp hin1
            obtain ⟨y, c1, v1, t1⟩ := out1
            have hveq : v1 = vis :=
              resolve_visiting_eq f s x c vis (y, c1, v1, t1) hout1
            have hrest : enoughFuel s (.obj rest) vis ≤ f := by
              unfold enoughFuel at hle ⊢
              simp only [JVal.size, JObj.size] at hle ⊢
              have := jval_size_pos x
              linarith
            have hin2 := ih s (.obj rest) c1 vis hrest
            obtain ⟨out2, hout2⟩ := Option.isSome_iff_exists.mp hin2
            obtain ⟨ys, c2, v2, t2⟩ := out2
            obtain ⟨ys', hys'⟩ := resolve_obj_isObj f s rest c1 vis
              (ys, c2, v2, t2) hout2
            rw [hout1]
            simp only [bind, Option.bind]
            rw [hveq, hout2]
            simp only at hys'
            rw [hys']
            simp
        · simp

/-- C1: Cycle breaking: for the table `[{"self": 0}]`, resolving node `0`
with an empty cache and empty visiting set terminates (returns `some`)
and yields `{"self": null}`: the cyclic self-reference resolves to `null`
at its occurrence, the surrounding object completes, index 0 is cached,
and the visiting set is restored to empty. -/
theorem cycle_breaking_self_reference :
    resolveTop (.cons (.obj (.cons "self" (.num 0) .nil)) .nil) (.num 0) =
      some (.obj (.cons "self" .null .nil),
        [(0, .obj (.cons "self" .null .nil))], ∅, [0]) := by
  decide

/-- C2: Literal passthrough end to end: for the table
`["current-book", 2, {"name": "Test", "id": 3}, "abc-id"]`,
`getAstroValueByKey(table, "current-book")` returns
`{"name": "Test", "id": "abc-id"}`: the start slot value `2` and the
in-range property value `3` are dereferenced through the table, while the
non-integer string `"Test"` is copied unchanged. -/
theorem literal_passthrough_getValueByKey :
    getAstroValueByKey
      (.cons (.str "current-book") (.cons (.num 2)
        (.cons (.obj (.cons "name" (.str "Test")
          (.cons "id" (.num 3) .nil)))
        (.cons (.str "abc-id") .nil)))) "current-book" =
      some (.obj (.cons "name" (.str "Test")
        (.cons "id" (.str "abc-id") .nil))) := by
  decide

/-- C3 counterexample: the claim "a top-level in-range integer start node
resolves to the literal integer itself" is false: for the table
`["hello"]`, resolving node `0` (top level, empty cache and visiting set)
yields the dereferenced slot content `"hello"`, not the integer `0`. -/
theorem toplevel_integer_literal_cex :
    resolveTop (.cons (.str "hello") .nil) (.num 0) =
      some (.str "hello", [(0, .str "hello")], ∅, [0]) ∧
    JVal.str "hello" ≠ JVal.num 0 := by
  decide

/-- C3 amended: top-level in-range integers are not literal; they are
dereferenced exactly as when encountered inside a container slot.
Resolving an in-range integer as the top-level start node gives the same
result (cache, visiting set and expansion trace included) as resolving it
as the sole element of an array, unwrapped from that array. -/
theorem toplevel_integer_dereferenced_like_nested :
    ∀ (fuel : Nat) (s : JList) (q : Rat) (c : Cache) (vis : Finset Nat),
      isSlotRef s.length (.num q) = true →
      resolveAstroValue (fuel + 1) s (.arr (.cons (.num q) .nil)) c vis =
        (resolveAstroValue fuel s (.num q) c vis).map
          (fun out => (.arr (.cons out.1 .nil), out.2.1, out.2.2.1,
            out.2.2.2)) := by
  intro fuel s q c vis _href
  cases fuel with
  | zero =>
    simp [resolveAstroValue, isSlotRef, bind, Option.bind]
  | succ f =>
    conv_lhs => rw [resolveAstroValue]
    rw [if_neg (by simp [isSlotRef])]
    dsimp only
    cases h1 : resolveAstroValue (f + 1) s (.num q) c vis with
    | none => simp [bind, Option.bind]
    | some out1 =>
      obtain ⟨y, c1, v1, t1⟩ := out1
      simp only [bind, Option.bind, Option.map]
      rw [show resolveAstroValue (f + 1) s (.arr .nil) c1 v1 =
          some (.arr .nil, c1, v1, []) by simp [resolveAstroValue, isSlotRef]]
      simp

/-- C4: Memoization: (1) a call on an in-range index whose cache entry
exists returns exactly the cached value, leaves cache and visiting set
untouched and expands no slot (empty trace, no re-traversal of the
table); (2) whenever a call on an in-range index not currently being
visited completes, the returned cache holds an entry for that index equal
to the returned value; (3) in the spec example table
`[0, {"a": 0, "b": 0}]`, resolving index `1` expands slot `0` exactly
once (expansion trace `[1, 0]`) and both properties receive the value of
slot `0`. -/
theorem memoization_cache_correct :
    (∀ (fuel : Nat) (s : JList) (q : Rat) (c : Cache) (vis : Finset Nat)
       (r : JVal), isSlotRef s.length (.num q) = true →
       c.lookup (refIndex (.num q)) = some r →
       resolveAstroValue (fuel + 1) s (.num q) c vis =
         some (r, c, vis, [])) ∧
    (∀ (fuel : Nat) (s : JList) (q : Rat) (c : Cache) (vis : Finset Nat)
       (out : JVal × Cache × Finset Nat × List Nat),
       isSlotRef s.length (.num q) = true →
       refIndex (.num q) ∉ vis →
       resolveAstroValue fuel s (.num q) c vis = some out →
       out.2.1.lookup (refIndex (.num q)) = some out.1) ∧
    (resolveTop
        (.cons (.num 0) (.cons (.obj (.cons "a" (.num 0)
          (.cons "b" (.num 0) .nil))) .nil)) (.num 1) =
      some (.obj (.cons "a" (.num 0) (.cons "b" (.num 0) .nil)),
        [(1, .obj (.cons "a" (.num 0) (.cons "b" (.num 0) .nil))),
         (0, .num 0)], ∅, [1, 0]) ∧
      List.count 0 [1, 0] = 1) := by
  refine ⟨?_, ?_, by decide⟩
  · intro fuel s q c vis r href hlook
    simp only [resolveAstroValue]
    rw [if_pos href, hlook]
  · intro fuel s q c vis out href hnvis h
    cases fuel with
    | zero => simp [resolveAstroValue] at h
    | succ f =>
      simp only [resolveAstroValue] at h
      rw [if_pos href] at h
      cases hlook : List.lookup (refIndex (.num q)) c with
      | some r =>
        rw [hlook] at h
        cases h
        simpa [List.lookup] using hlook
      | none =>
        rw [hlook] at h
        dsimp only at h
        rw [if_neg hnvis] at h
        split at h
        · rename_i xs htgt
          cases h1 : resolveAstroValue f s (.arr xs) c
              (insert (refIndex (.num q)) vis) with
          | none => rw [h1] at h; simp [bind, Option.bind] at h
          | some out1 =>
            obtain ⟨r1, c1, v1, t1⟩ := out1
            rw [h1] at h
            simp only [bind, Option.bind] at h
            cases h
            simp [List.lookup]
        · rename_i kvs htgt
          cases h1 : resolveAstroValue f s (.obj kvs) c
              (insert (refIndex (.num q)) vis) with
          | none => rw [h1] at h; simp [bind, Option.bind] at h
          | some out1 =>
            obtain ⟨r1, c1, v1, t1⟩ := out1
            rw [h1] at h
            simp only [bind, Option.bind] at h
            cases h
            simp [List.lookup]
        · cases h
          simp [List.lookup]

/-- C5: A cycle occurrence is not cached: when the node is an in-range
integer that is already in the visiting set and has no cache entry, the
call returns `null` with the cache left exactly as it was (no entry
written, no slot expanded, visiting set untouched), so the `null` is
local to this occurrence. -/
theorem cycle_occurrence_not_cached :
    ∀ (fuel : Nat) (s : JList) (q : Rat) (c : Cache) (vis : Finset Nat),
      isSlotRef s.length (.num q) = true →
      c.lookup (refIndex (.num q)) = none →
      refIndex (.num q) ∈ vis →
      resolveAstroValue (fuel + 1) s (.num q) c vis =
        some (.null, c, vis, []) := by
  intro fuel s q c vis href hlook hvis
  simp only [resolveAstroValue]
  rw [if_pos href, hlook, if_pos hvis]

/-- C6: Termination: for every finite table, starting node, cache and
visiting set, resolution completes — at any fuel at least the explicit
bound `enoughFuel` (which exists because the visiting-set check bounds
reference-following by the table length), `resolveAstroValue` returns
`some` rather than running out. -/
theorem resolveAstroValue_terminates (s : JList) (v : JVal) (c : Cache)
    (vis : Finset Nat) (fuel : Nat) (h : enoughFuel s v vis ≤ fuel) :
    (resolveAstroValue fuel s v c vis).isSome :=
  resolve_isSome fuel s v c vis h

/-- C9: Out-of-range and non-integer literals: any node that is neither
an array, an object, nor an in-range integer — a string, boolean, null,
non-integer number, negative integer, or integer `≥ table.length` — is
returned unchanged, with cache and visiting set untouched and no slot
expanded; in particular for the table `[{"count": 99}]` (length 1),
resolving node `0` yields `{"count": 99}` with the out-of-range `99`
intact. -/
theorem out_of_range_and_nonref_literals :
    (∀ (fuel : Nat) (s : JList) (v : JVal) (c : Cache) (vis : Finset Nat),
       isSlotRef s.length v = false →
       (∀ xs, v ≠ .arr xs) → (∀ kvs, v ≠ .obj kvs) →
       resolveAstroValue (fuel + 1) s v c vis = some (v, c, vis, [])) ∧
    resolveTop (.cons (.obj (.cons "count" (.num 99) .nil)) .nil)
        (.num 0) =
      some (.obj (.cons "count" (.num 99) .nil),
        [(0, .obj (.cons "count" (.num 99) .nil))], ∅, [0]) := by
  refine ⟨?_, by decide⟩
  intro fuel s v c vis href harr hobj
  simp only [resolveAstroValue]
  rw [if_neg (by simp [href])]
  cases v with
  | null => rfl
  | bool b => rfl
  | num q => rfl
  | str st => rfl
  | arr xs => exact absurd rfl (harr xs)
  | obj kvs => exact absurd rfl (hobj kvs)

/-- C10: The visiting set is restored on every return path: whatever a
`resolveAstroValue` call returns, the visiting set it hands back equals
the one it was given (indices added before expanding a slot are removed
before returning; cache-hit, cycle and literal branches never touch it). -/
theorem visiting_set_restored (fuel : Nat) (s : JList) (v : JVal)
    (c : Cache) (vis : Finset Nat)
    (out : JVal × Cache × Finset Nat × List Nat)
    (h : resolveAstroValue fuel s v c vis = some out) : out.2.2.1 = vis :=
  resolve_visiting_eq fuel s v c vis out h

theorem findKeyIndex_eq_none (key : String) : ∀ (s : JList),
    (∀ j, j < s.length → s.getD j .null ≠ .str key) →
    findKeyIndex key s = none
  | .nil, _ => rfl
  | .cons x rest, h => by
    have hx : x ≠ JVal.str key := by
      have := h 0 (by simp [JList.length])
      simpa [JList.getD] using this
    have hrest : findKeyIndex key rest = none :=
      findKeyIndex_eq_none key rest (fun j hj => by
        have := h (j + 1) (by simp [JList.length] at hj ⊢; omega)
        simpa [JList.getD] using this)
    simp [findKeyIndex, hx, hrest]

theorem findKeyIndex_eq_some (key : String) : ∀ (s : JList) (p : Nat),
    p < s.length → s.getD p .null = .str key →
    (∀ j, j < p → s.getD j .null ≠ .str key) →
    findKeyIndex key s = some p
  | .nil, p, hp, _, _ => by simp [JList.length] at hp
  | .cons x rest, 0, _, heq, _ => by
    simp [JList.getD] at heq
    simp [findKeyIndex, heq]
  | .cons x rest, p + 1, hp, heq, hfirst => by
    have hx : x ≠ JVal.str key := by
      have := hfirst 0 (by omega)
      simpa [JList.getD] using this
    have hrest : findKeyIndex key rest = some p :=
      findKeyIndex_eq_some key rest p
        (by simp [JList.length] at hp; omega)
        (by simpa [JList.getD] using heq)
        (fun j hj => by
          have := hfirst (j + 1) (by omega)
          simpa [JList.getD] using this)
    simp [findKeyIndex, hx, hrest]

/-- C7: Key Locator contract: if no table entry is strictly equal to the
string key, the result is absent; if the first entry equal to the key
sits at position `p` and `p` is the last position, the result is absent;
if `p + 1` is still in bounds, the result is the resolution of the start
slot `p + 1` (a later duplicate of the key is irrelevant: only positions
before `p` are constrained). -/
theorem key_locator_contract :
    (∀ (s : JList) (key : String),
       (∀ j, j < s.length → s.getD j .null ≠ .str key) →
       getAstroValueByKey s key = none) ∧
    (∀ (s : JList) (key : String) (p : Nat),
       p < s.length → s.getD p .null = .str key →
       (∀ j, j < p → s.getD j .null ≠ .str key) →
       p + 1 = s.length →
       getAstroValueByKey s key = none) ∧
    (∀ (s : JList) (key : String) (p : Nat),
       p < s.length → s.getD p .null = .str key →
       (∀ j, j < p → s.getD j .null ≠ .str key) →
       p + 1 < s.length →
       getAstroValueByKey s key =
         (resolveTop s (s.getD (p + 1) .null)).map (fun out => out.1)) := by
  refine ⟨?_, ?_, ?_⟩
  · intro s key hnone
    unfold getAstroValueByKey
    rw [findKeyIndex_eq_none key s hnone]
  · intro s key p hp heq hfirst hlast
    unfold getAstroValueByKey
    rw [findKeyIndex_eq_some key s p hp heq hfirst]
    dsimp only
    rw [if_pos (show p + 1 ≥ s.length by omega)]
  · intro s key p hp heq hfirst hbound
    unfold getAstroValueByKey
    rw [findKeyIndex_eq_some key s p hp heq hfirst]
    dsimp only
    rw [if_neg (show ¬p + 1 ≥ s.length by omega)]
    cases hres : resolveTop s (s.getD (p + 1) .null) with
    | none => simp
    | some out => obtain ⟨r, c, vis, t⟩ := out; simp

/-- C8: Table Extractor contract: `extractAstroState` is absent exactly
when the element is missing (`none`), its text is empty, the text does
not parse as JSON (`parse` returns `none`, the thrown exception caught by
the source), or the parsed value is not an array; when the parsed value
is an array it returns exactly that array.  Being a total function of
the abstracted element text and parser, no exception escapes. -/
theorem table_extractor_contract :
    (∀ parse : String → Option JVal, extractAstroState parse none = none) ∧
    (∀ parse : String → Option JVal,
       extractAstroState parse (some "") = none) ∧
    (∀ (parse : String → Option JVal) (st : String), st ≠ "" →
       parse st = none → extractAstroState parse (some st) = none) ∧
    (∀ (parse : String → Option JVal) (st : String) (v : JVal), st ≠ "" →
       parse st = some v → (∀ xs, v ≠ .arr xs) →
       extractAstroState parse (some st) = none) ∧
    (∀ (parse : String → Option JVal) (st : String) (xs : JList),
       st ≠ "" → parse st = some (.arr xs) →
       extractAstroState parse (some st) = some xs) := by
  refine ⟨fun _ => rfl, fun _ => rfl, ?_, ?_, ?_⟩
  · intro parse st hne hparse
    unfold extractAstroState
    dsimp only
    rw [if_neg hne, hparse]
  · intro parse st v hne hparse hnarr
    unfold extractAstroState
    dsimp only
    rw [if_neg hne, hparse]
    cases v with
    | arr xs => exact absurd rfl (hnarr xs)
    | null => rfl
    | bool b => rfl
    | num q => rfl
    | str s2 => rfl
    | obj kvs => rfl
  · intro parse st xs hne hparse
    unfold extractAstroState
    dsimp only
    rw [if_neg hne, hparse]

/-- Witness for the amended C3 theorem at a concrete table and index. -/
theorem toplevel_integer_dereferenced_like_nested_witness :
    isSlotRef (JList.cons (.str "a") .nil).length (.num 0) = true ∧
    resolveAstroValue 4 (.cons (.str "a") .nil)
        (.arr (.cons (.num 0) .nil)) [] ∅ =
      (resolveAstroValue 3 (.cons (.str "a") .nil) (.num 0) [] ∅).map
        (fun out => (.arr (.cons out.1 .nil), out.2.1, out.2.2.1,
          out.2.2.2)) :=
  ⟨by decide, toplevel_integer_dereferenced_like_nested 3
    (.cons (.str "a") .nil) 0 [] ∅ (by decide)⟩

/-- Witness for C4 at concrete inputs: a cache hit returns the cached
value untouched, and a completed miss writes the entry it returns. -/
theorem memoization_cache_correct_witness :
    resolveAstroValue 1 (.cons .null .nil) (.num 0) [(0, .str "v")] ∅ =
      some (.str "v", [(0, .str "v")], ∅, []) ∧
    List.lookup 0 [(0, JVal.null)] = some JVal.null :=
  ⟨memoization_cache_correct.1 0 (.cons .null .nil) 0 [(0, .str "v")] ∅
      (.str "v") (by decide) (by decide),
   memoization_cache_correct.2.1 2 (.cons .null .nil) 0 [] ∅
      (JVal.null, [(0, JVal.null)], ∅, [0]) (by decide) (by decide)
      (by decide)⟩

/-- Witness for C5 at a concrete in-progress index. -/
theorem cycle_occurrence_not_cached_witness :
    resolveAstroValue 1 (.cons .null .nil) (.num 0) [] {0} =
      some (.null, [], {0}, []) :=
  cycle_occurrence_not_cached 0 (.cons .null .nil) 0 [] {0}
    (by decide) (by decide) (by decide)

/-- Witness for C6 at a concrete table, node and fuel. -/
theorem resolveAstroValue_terminates_witness :
    enoughFuel (JList.cons .null .nil) (.num 0) ∅ ≤ 10 ∧
    (resolveAstroValue 10 (.cons .null .nil) (.num 0) [] ∅).isSome :=
  ⟨by decide,
   resolveAstroValue_terminates (.cons .null .nil) (.num 0) [] ∅ 10
     (by decide)⟩

/-- Witness for C7: the three locator cases at concrete tables. -/
theorem key_locator_contract_witness :
    getAstroValueByKey (.cons (.num 1) .nil) "k" = none ∧
    getAstroValueByKey (.cons (.str "k") .nil) "k" = none ∧
    getAstroValueByKey (.cons (.str "k") (.cons (.bool true) .nil)) "k" =
      (resolveTop (.cons (.str "k") (.cons (.bool true) .nil))
        ((JList.cons (.str "k") (.cons (.bool true) .nil)).getD 1 .null)).map
        (fun out => out.1) :=
  ⟨key_locator_contract.1 (.cons (.num 1) .nil) "k"
      (fun j hj => by
        have hj0 : j = 0 := by simp [JList.length] at hj; omega
        subst hj0; decide),
   key_locator_contract.2.1 (.cons (.str "k") .nil) "k" 0 (by decide)
      (by decide) (fun j hj => absurd hj (by omega)) (by decide),
   key_locator_contract.2.2 (.cons (.str "k") (.cons (.bool true) .nil))
      "k" 0 (by decide) (by decide) (fun j hj => absurd hj (by omega))
      (by decide)⟩

/-- Witness for C8: each extractor case at a concrete parser and text. -/
theorem table_extractor_contract_witness :
    extractAstroState (fun _ => none) none = none ∧
    extractAstroState (fun _ => none) (some "") = none ∧
    extractAstroState (fun _ => none) (some "x") = none ∧
    extractAstroState (fun _ => some .null) (some "x") = none ∧
    extractAstroState (fun _ => some (.arr .nil)) (some "x") =
      some .nil :=
  ⟨table_extractor_contract.1 (fun _ => none),
   table_extractor_contract.2.1 (fun _ => none),
   table_extractor_contract.2.2.1 (fun _ => none) "x" (by decide) rfl,
   table_extractor_contract.2.2.2.1 (fun _ => some .null) "x" .null
     (by decide) rfl (fun xs h => JVal.noConfusion h),
   table_extractor_contract.2.2.2.2 (fun _ => some (.arr .nil)) "x" .nil
     (by decide) rfl⟩

/-- Witness for C9 at a concrete non-reference node. -/
theorem out_of_range_and_nonref_literals_witness :
    resolveAstroValue 1 (.cons .null .nil) (.str "zz") [] ∅ =
      some (.str "zz", [], ∅, []) :=
  out_of_range_and_nonref_literals.1 0 (.cons .null .nil) (.str "zz") [] ∅
    (by decide) (fun xs h => JVal.noConfusion h)
    (fun kvs h => JVal.noConfusion h)

/-- Witness for C10 at a concrete call. -/
theorem visiting_set_restored_witness :
    ((JVal.null, ([] : Cache), (∅ : Finset Nat), ([] : List Nat))).2.2.1 =
      (∅ : Finset Nat) :=
  visiting_set_restored 1 (.cons .null .nil) .null [] ∅
    (.null, [], ∅, []) (by decide)
